import Mathlib

set_option autoImplicit false
set_option linter.unnecessarySeqFocus false
set_option linter.unnecessarySimpa false

/-!
Verification development for the git-ai line-authorship tracker.

The repository's `src/commands/status.rs` orchestrates the pipeline: it
opportunistically records a human checkpoint, reads the WorkingLog for the
current HEAD, replays it through the Virtual Attribution Engine
(`VirtualAttributions::from_just_working_log`), builds an AuthorshipLog
restricted to the files touched by the log, and aggregates stats
(`stats_from_authorship_log`).  The engine, builder, aggregator and recorder
live outside the visible sources, so they are modelled here from the design
document; `status.rs` itself is embedded directly.
-/

universe u

variable {α : Type u}

/-- An agent identity: tool name and model name. -/
structure AgentId where
  tool : String
  model : String
deriving DecidableEq

/-- Checkpoint kind: recorded by a human or by an AI agent. -/
inductive CheckpointKind
  | Human
  | Agent
deriving DecidableEq

/-- A half-open range of 1-indexed line numbers: it covers lines
`start, start + 1, ..., stop - 1`. -/
structure LineRange where
  start : Nat
  stop : Nat
deriving DecidableEq

/-- Modelled from the spec: one per-file entry of a checkpoint, with added and
removed line ranges (the checkpoint data model is not under `src/`). -/
structure FileEntry where
  file : String
  added : List LineRange
  removed : List LineRange
deriving DecidableEq

/-- Aggregate addition/deletion totals of one checkpoint, computed at capture
time. -/
structure LineStats where
  additions : Nat
  deletions : Nat
deriving DecidableEq

/-- Modelled from the spec: an immutable checkpoint record (`working_log.rs` is
not under `src/`): timestamp, kind, optional agent identity, per-file entries
and aggregate line stats. -/
structure Checkpoint where
  timestamp : Nat
  kind : CheckpointKind
  agent_id : Option AgentId
  entries : List FileEntry
  line_stats : LineStats
deriving DecidableEq

/-- An owner of a line: a human display name, or an agent given by tool and
model, as in the AuthorshipLog data model. -/
inductive Owner
  | human (name : String)
  | agent (tool model : String)
deriving DecidableEq

/-- The length of a line range. -/
def rangeLen (r : LineRange) : Nat := r.stop - r.start

/-- Total number of lines covered by a list of ranges (sum of lengths). -/
def totalLen (rs : List LineRange) : Nat := (rs.map rangeLen).sum

/-- Whether 1-indexed line number `n` falls inside range `r`. -/
def inRange (r : LineRange) (n : Nat) : Bool := r.start ≤ n && n < r.stop

/-- Whether line number `n` falls inside any of the ranges `rs`. -/
def inAnyRange (rs : List LineRange) (n : Nat) : Bool := rs.any (fun r => inRange r n)

/-- Modelled from the spec: remove from a file state (a list of lines, the
head being line `pos`) every line whose current 1-indexed position lies in one
of the removed ranges; surviving lines shift up. -/
def removeLines (rs : List LineRange) : Nat → List α → List α
  | _, [] => []
  | pos, l :: rest =>
    if inAnyRange rs pos then removeLines rs (pos + 1) rest
    else l :: removeLines rs (pos + 1) rest

/-- Remove the lines of `st` whose (1-indexed) positions lie in `rs`. -/
def applyRemovals (rs : List LineRange) (st : List α) : List α := removeLines rs 1 st

/-- Modelled from the spec: rebuild the post-edit file.  Position `pos` of the
post-edit file receives a freshly added line `x` when `pos` lies in an added
range (post-edit coordinates), and otherwise the next surviving pre-edit line.
`fuel` is the number of post-edit positions still to fill. -/
def buildPost (x : α) (rs : List LineRange) : Nat → List α → Nat → List α
  | 0, _, _ => []
  | fuel + 1, surv, pos =>
    if inAnyRange rs pos then x :: buildPost x rs fuel surv (pos + 1)
    else
      match surv with
      | [] => []
      | s :: rest => s :: buildPost x rs fuel rest (pos + 1)

/-- Insert the added lines (all equal to `x`) at the positions given by `rs`
in post-edit coordinates, the surviving lines `st` filling the gaps in
order. -/
def applyAdditions (x : α) (rs : List LineRange) (st : List α) : List α :=
  buildPost x rs (st.length + totalLen rs) st 1

/-- Modelled from the spec: apply one checkpoint entry's edit to a file state —
first drop the removed lines, then insert the added lines (each new line being
`x`) at their post-edit positions. -/
def applyEdit (x : α) (added removed : List LineRange) (st : List α) : List α :=
  applyAdditions x added (applyRemovals removed st)

/-- A file state for attribution: one entry per current line, `none` meaning
the line predates every checkpoint (base commit), `some o` that `o` last wrote
it. -/
abbrev FileState : Type := List (Option Owner)

/-- The derived line-ownership map: file path to per-line ownership state. -/
abbrev LineOwnership : Type := List (String × FileState)

/-- The author of a checkpoint, as the Virtual Attribution Engine resolves it:
the agent identity when present, and otherwise the supplied human display
name. -/
def checkpointOwner (d : String) (c : Checkpoint) : Owner :=
  match c.agent_id with
  | some a => Owner.agent a.tool a.model
  | none => Owner.human d

/-- Update the state of file `f` in an ownership map through `g`, inserting the
file (starting from an empty state) if absent. -/
def updateFile (va : LineOwnership) (f : String) (g : FileState → FileState) : LineOwnership :=
  match va with
  | [] => [(f, g [])]
  | (f', st) :: rest =>
    if f' = f then (f', g st) :: rest else (f', st) :: updateFile rest f g

/-- Modelled from the spec: apply one checkpoint entry to the ownership map —
the entry's file is edited by removing the removed ranges and inserting lines
owned by `o` at the added ranges. -/
def applyEntry (o : Owner) (e : FileEntry) (va : LineOwnership) : LineOwnership :=
  updateFile va e.file (fun st => applyEdit (some o) e.added e.removed st)

/-- Modelled from the spec: apply a whole checkpoint, its entries in listed
order (a later-listed entry wins on overlap). -/
def applyCheckpoint (d : String) (va : LineOwnership) (c : Checkpoint) : LineOwnership :=
  c.entries.foldl (fun va e => applyEntry (checkpointOwner d c) e va) va

/-- Modelled from the spec: replay a WorkingLog in storage (chronological)
order over an initial ownership map. -/
def replay (d : String) (va : LineOwnership) (log : List Checkpoint) : LineOwnership :=
  log.foldl (applyCheckpoint d) va

/-- The initial ownership map for the base commit: every line of every target
file is unattributed (`none`). -/
def initVA (base : List (String × Nat)) : LineOwnership :=
  base.map (fun p => (p.1, List.replicate p.2 (none : Option Owner)))

/-- Modelled from the spec: `VirtualAttributions::from_just_working_log` is not
under `src/`; it replays all checkpoints of the WorkingLog for the base commit,
starting from the unattributed base-commit state, to produce the current
line-ownership map. -/
def from_just_working_log (d : String) (base : List (String × Nat))
    (log : List Checkpoint) : LineOwnership :=
  replay d (initVA base) log

/-- One entry of an AuthorshipLog file: a line range and its owner. -/
structure RangeOwner where
  range : LineRange
  owner : Owner
deriving DecidableEq

/-- The exported AuthorshipLog: file path to its ordered owned line ranges. -/
abbrev AuthorshipLog : Type := List (String × List RangeOwner)

/-- Modelled from the spec: turn the per-line ownership of a file (line `pos`
first) into an ordered list of owned ranges, adjacent ranges with the same
owner merged; unattributed lines produce no range. -/
def collectRanges : Nat → List (Option Owner) → List RangeOwner
  | _, [] => []
  | pos, none :: rest => collectRanges (pos + 1) rest
  | pos, some o :: rest =>
    match collectRanges (pos + 1) rest with
    | [] => [⟨⟨pos, pos + 1⟩, o⟩]
    | ro :: tail =>
      if ro.owner = o ∧ ro.range.start = pos + 1 then
        ⟨⟨pos, ro.range.stop⟩, o⟩ :: tail
      else
        ⟨⟨pos, pos + 1⟩, o⟩ :: ro :: tail

/-- Whether a file path passes the optional path filter (`none` admits every
file). -/
def fileMatches (filt : Option (List String)) (f : String) : Bool :=
  match filt with
  | none => true
  | some fs => fs.contains f

/-- Modelled from the spec: the Authorship Log Builder — restrict the ownership
map to the files matching the filter, serialize each file's ownership into
sorted merged ranges, and keep only files with at least one owned range. -/
def toAuthorshipLog (filt : Option (List String)) (va : LineOwnership) : AuthorshipLog :=
  ((va.filter (fun p => fileMatches filt p.1)).map
      (fun p => (p.1, collectRanges 1 p.2))).filter
    (fun p => !p.2.isEmpty)

/-- Sum of the lengths of the ranges owned by `o` in one file's range list. -/
def netInRanges (o : Owner) (l : List RangeOwner) : Nat :=
  ((l.filter (fun ro => ro.owner = o)).map (fun ro => rangeLen ro.range)).sum

/-- Net (surviving) additions attributable to owner `o` in an AuthorshipLog:
the number of current lines it owns. -/
def netAdditions (al : AuthorshipLog) (o : Owner) : Nat :=
  (al.map (fun p => netInRanges o p.2)).sum

/-- Whether an owner is a human author. -/
def isHumanOwner : Owner → Bool
  | Owner.human _ => true
  | Owner.agent _ _ => false

/-- Net surviving lines owned by any human author. -/
def netHuman (al : AuthorshipLog) : Nat :=
  (al.map (fun p => ((p.2.filter (fun ro => isHumanOwner ro.owner)).map
      (fun ro => rangeLen ro.range)).sum)).sum

/-- Net surviving lines owned by any agent author. -/
def netAI (al : AuthorshipLog) : Nat :=
  (al.map (fun p => ((p.2.filter (fun ro => !isHumanOwner ro.owner)).map
      (fun ro => rangeLen ro.range)).sum)).sum

/-- Final reportable metrics: gross (unadjusted) totals and the human/AI net
split. -/
structure Stats where
  gross_additions : Nat
  gross_deletions : Nat
  net_human : Nat
  net_ai : Nat
deriving DecidableEq

/-- Modelled from the spec: `stats_from_authorship_log` (the Stats Aggregator,
not under `src/`) stores the raw gross totals unadjusted and derives the net
human/AI split by counting surviving lines of the AuthorshipLog. -/
def stats_from_authorship_log (al : Option AuthorshipLog)
    (total_additions total_deletions : Nat) : Stats :=
  match al with
  | none => ⟨total_additions, total_deletions, 0, 0⟩
  | some al => ⟨total_additions, total_deletions, netHuman al, netAI al⟩

/-- Gross additions handed to the Stats Aggregator by `run_status`
(status.rs line 121): the sum of every checkpoint's `line_stats.additions`. -/
def status_total_additions (cps : List Checkpoint) : Nat :=
  (cps.map (fun c => c.line_stats.additions)).sum

/-- Gross deletions accumulated by `run_status` (status.rs lines 69-77): a
running total over the checkpoints iterated in reverse order. -/
def status_total_deletions (cps : List Checkpoint) : Nat :=
  cps.reverse.foldl (fun acc c => acc + c.line_stats.deletions) 0

/-- Errors surfaced by the status pipeline (`GitAiError`), modelled as an
abstract message-carrying type. -/
inductive GitAiError
  | err (msg : String)
deriving DecidableEq

/-- The default user name chosen by `run_status` (status.rs lines 29-32): the
configured `user.name` when the config read succeeds with a non-blank value,
and `"unknown"` otherwise. -/
def default_user_name (cfg : Except GitAiError (Option String)) : String :=
  match cfg with
  | .ok (some name) => if name.trim = "" then "unknown" else name
  | _ => "unknown"

/-- `capitalize` from status.rs lines 179-185: uppercase the first character,
keep the rest. -/
def capitalize (s : String) : String :=
  match s.data with
  | [] => ""
  | f :: rest => String.mk (f.toUpper :: rest)

/-- `format_time_ago` from status.rs lines 161-177, with the current time
passed explicitly; the subtraction is saturating, as in the source. -/
def format_time_ago (now timestamp : Nat) : String :=
  let diff := now - timestamp
  if diff < 60 then toString diff ++ " secs ago"
  else if diff < 3600 then toString (diff / 60) ++ " mins ago"
  else if diff < 86400 then toString (diff / 3600) ++ " hours ago"
  else toString (diff / 86400) ++ " days ago"

/-- `CheckpointInfo` from status.rs lines 10-16: what the checkpoint listing
displays for one checkpoint. -/
structure CheckpointInfo where
  time_ago : String
  additions : Nat
  deletions : Nat
  tool_model : String
  is_human : Bool
deriving DecidableEq

/-- The per-checkpoint display info built by `run_status` (status.rs lines
79-92): the label comes from `agent_id` when present (capitalized tool then
model) and otherwise is the default user name; `is_human` compares `kind`
with `Human`. -/
def mkCheckpointInfo (now : Nat) (d : String) (cp : Checkpoint) : CheckpointInfo :=
  { time_ago := format_time_ago now cp.timestamp
    additions := cp.line_stats.additions
    deletions := cp.line_stats.deletions
    tool_model :=
      match cp.agent_id with
      | some a => capitalize a.tool ++ " " ++ a.model
      | none => d
    is_human := decide (cp.kind = CheckpointKind.Human) }

/-- Right-pad a string with spaces to width `n` (Rust's `{:<14}`). -/
def padRight (s : String) (n : Nat) : String :=
  s ++ String.mk (List.replicate (n - s.length) ' ')

/-- Left-pad a string with spaces to width `n` (Rust's `{:>5}`). -/
def padLeft (s : String) (n : Nat) : String :=
  String.mk (List.replicate (n - s.length) ' ') ++ s

/-- The undimmed checkpoint line assembled by `run_status` (status.rs lines
134-149). -/
def infoLine (cp : CheckpointInfo) : String :=
  let add_str := if cp.additions > 0 then "+" ++ toString cp.additions else "0"
  let del_str := if cp.deletions > 0 then "-" ++ toString cp.deletions else "0"
  padRight cp.time_ago 14 ++ " " ++ padLeft add_str 5 ++ "  " ++ padLeft del_str 5
    ++ "  " ++ cp.tool_model

/-- The printed checkpoint line (status.rs lines 151-155): human checkpoints
are wrapped in the grey ANSI escape, others are printed as-is. -/
def renderInfo (cp : CheckpointInfo) : String :=
  if cp.is_human then "\x1b[90m" ++ infoLine cp ++ "\x1b[0m" else infoLine cp

/-- What the status command reports: either the "no checkpoints recorded"
notice, or the stats together with the rendered checkpoint lines. -/
inductive StatusOutput
  | noCheckpoints (sha : String)
  | report (stats : Stats) (lines : List String)
deriving DecidableEq

/-- The collaborator outcomes `run_status` consumes: repository lookup, config
read, the ignored opportunistic human-checkpoint recording, HEAD resolution,
the WorkingLog read, the base-commit line counts used by replay, and the
current time. -/
structure StatusEnv where
  repo_found : Except GitAiError Unit
  config_user_name : Except GitAiError (Option String)
  record_result : Except GitAiError Unit
  head_sha : Except GitAiError String
  checkpoints : Except GitAiError (List Checkpoint)
  base_lines : List (String × Nat)
  now : Nat

/-- The stats computed by `run_status` (status.rs lines 95-127): replay the
working log, build the authorship log restricted to the files the checkpoints
touch, and aggregate with the raw gross totals. -/
def statusStats (d : String) (base : List (String × Nat)) (cps : List Checkpoint) : Stats :=
  let va := from_just_working_log d base cps
  let pathspecs := cps.flatMap (fun cp => cp.entries.map (fun e => e.file))
  let al := toAuthorshipLog (some pathspecs) va
  stats_from_authorship_log (some al) (status_total_additions cps)
    (status_total_deletions cps)

/-- The rendered checkpoint listing of `run_status` (status.rs lines 71, 134-
156): checkpoints in reverse storage order. -/
def statusLines (now : Nat) (d : String) (cps : List Checkpoint) : List String :=
  (cps.reverse.map (mkCheckpointInfo now d)).map renderInfo

/-- `run_status` from status.rs lines 25-158: find the repository, read the
configured user name, perform the opportunistic human checkpoint recording and
discard its result (`let _ =`), resolve HEAD, read the WorkingLog, and either
report the empty-log notice or the stats and checkpoint listing. -/
def run_status (env : StatusEnv) : Except GitAiError StatusOutput :=
  match env.repo_found with
  | .error e => .error e
  | .ok _ =>
    let d := default_user_name env.config_user_name
    let _ := env.record_result
    match env.head_sha with
    | .error e => .error e
    | .ok head =>
      match env.checkpoints with
      | .error e => .error e
      | .ok cps =>
        if cps.isEmpty then .ok (.noCheckpoints head)
        else .ok (.report (statusStats d env.base_lines cps) (statusLines env.now d cps))

/-- A working-tree snapshot: file path to its list of lines. -/
abbrev WTState : Type := List (String × List String)

/-- Look up the content of file `f` in a working-tree snapshot. -/
def lookupFile (st : WTState) (f : String) : Option (List String) :=
  match st with
  | [] => none
  | (g, c) :: rest => if g = f then some c else lookupFile rest f

/-- All file names mentioned by either of two snapshots. -/
def allFiles (last cur : WTState) : List String :=
  (last.map Prod.fst ++ cur.map Prod.fst).eraseDups

/-- Whether no file differs between the last known state and the current
working tree (files absent on both sides trivially agree). -/
def noFileDiffers (last cur : WTState) : Bool :=
  (allFiles last cur).all (fun f => decide (lookupFile last f = lookupFile cur f))

/-- The Recorder's persistent view: the checkpoint store and the last known
working-tree state (the previous checkpoint's resulting content, or the base
commit if the log is empty). -/
structure RecorderState where
  store : List Checkpoint
  last_state : WTState
deriving DecidableEq

/-- Modelled from the spec: `checkpoint::run` (the Checkpoint Recorder) is not
under `src/`.  Given the current working tree it compares every file against
the last known state; when no file differs it appends nothing (no-op),
otherwise it builds one checkpoint whose per-file entries come from the
external diff primitive `diffFn` (added ranges, removed ranges), with
`line_stats` the sum of added and removed lines over all entries, and appends
it to the store. -/
def recorder_run
    (diffFn : Option (List String) → Option (List String) → List LineRange × List LineRange)
    (ts : Nat) (kind : CheckpointKind) (agent : Option AgentId)
    (cur : WTState) (st : RecorderState) : RecorderState :=
  if noFileDiffers st.last_state cur then st
  else
    let changed := (allFiles st.last_state cur).filter
      (fun f => !decide (lookupFile st.last_state f = lookupFile cur f))
    let entries := changed.map (fun f =>
      let d := diffFn (lookupFile st.last_state f) (lookupFile cur f)
      FileEntry.mk f d.1 d.2)
    let stats := LineStats.mk ((entries.map (fun e => totalLen e.added)).sum)
      ((entries.map (fun e => totalLen e.removed)).sum)
    { store := st.store ++ [Checkpoint.mk ts kind agent entries stats]
      last_state := cur }

/-- Lines owned by `o` in one file state. -/
def countOwner (o : Owner) (st : List (Option Owner)) : Nat :=
  st.countP (fun l => l = some o)

/-- Lines owned by `o` across a whole ownership map. -/
def countOwnerVA (o : Owner) (va : LineOwnership) : Nat :=
  (va.map (fun p => countOwner o p.2)).sum

/-- Number of positions among `pos, ..., pos + fuel - 1` lying in range `r`. -/
def countInRange (r : LineRange) : Nat → Nat → Nat
  | _, 0 => 0
  | pos, fuel + 1 => (if inRange r pos then 1 else 0) + countInRange r (pos + 1) fuel

/-- Number of positions among `pos, ..., pos + fuel - 1` covered by some range
of `rs`. -/
def coveredCount (rs : List LineRange) : Nat → Nat → Nat
  | _, 0 => 0
  | pos, fuel + 1 => (if inAnyRange rs pos then 1 else 0) + coveredCount rs (pos + 1) fuel

/-- Sum of added line counts over a checkpoint's file entries — what the
Recorder records as `line_stats.additions`. -/
def sumAddedLines (entries : List FileEntry) : Nat :=
  (entries.map (fun e => totalLen e.added)).sum

/-- Gross additions reported by the checkpoints of author `o` (resolved with
default human name `d`): the sum of their `line_stats.additions`. -/
def grossAdditionsOf (d : String) (o : Owner) (log : List Checkpoint) : Nat :=
  (log.map (fun c => if checkpointOwner d c = o then c.line_stats.additions else 0)).sum

/-- A file's range list is sorted by starting line and merged: consecutive
ranges have strictly increasing starts, do not overlap, and never touch with
the same owner. -/
def rangesSortedMerged (l : List RangeOwner) : Prop :=
  List.Chain' (fun a b => a.range.start < b.range.start ∧ a.range.stop ≤ b.range.start ∧
    ¬(a.range.stop = b.range.start ∧ a.owner = b.owner)) l

/-- Checkpoint C1 of the overwrite-correctness scenario: agent toolA/modelX
adds lines 1-10 to an empty file. -/
def cpAgentTen : Checkpoint :=
  ⟨1, .Agent, some ⟨"toolA", "modelX"⟩, [⟨"f", [⟨1, 11⟩], []⟩], ⟨10, 0⟩⟩

/-- Checkpoint C2 of the overwrite-correctness scenario: a human replaces
lines 3-5. -/
def cpHumanReplace : Checkpoint :=
  ⟨2, .Human, none, [⟨"f", [⟨3, 6⟩], [⟨3, 6⟩]⟩], ⟨3, 3⟩⟩

/-- Checkpoint C1 of the deletion-correctness scenario: the agent adds lines
1-5 to an empty file. -/
def cpAgentFive : Checkpoint :=
  ⟨1, .Agent, some ⟨"toolA", "modelX"⟩, [⟨"f", [⟨1, 6⟩], []⟩], ⟨5, 0⟩⟩

/-- Checkpoint C2 of the deletion-correctness scenario: a human deletes lines
2-4. -/
def cpHumanDelete : Checkpoint :=
  ⟨2, .Human, none, [⟨"f", [], [⟨2, 5⟩]⟩], ⟨0, 3⟩⟩

/-- A checkpoint whose kind is Agent but whose agent identity is absent, to
separate what `kind` decides from what `agent_id` decides. -/
def cpOddAgent : Checkpoint := ⟨3, .Agent, none, [], ⟨0, 0⟩⟩

/-- A status environment whose opportunistic recording failed. -/
def envErr : StatusEnv :=
  ⟨.ok (), .ok none, .error (.err "record failed"), .ok "abc1234", .ok [cpAgentTen], [("f", 0)], 100⟩

/-- A status environment with an empty WorkingLog. -/
def envEmpty : StatusEnv := ⟨.ok (), .ok none, .ok (), .ok "abc1234", .ok [], [], 0⟩

theorem foldl_add_eq_sum (f : Checkpoint → Nat) :
    ∀ (l : List Checkpoint) (a : Nat),
      l.foldl (fun acc c => acc + f c) a = a + (l.map f).sum := by
  intro l
  induction l with
  | nil => intro a; simp
  | cons c cs ih => intro a; simp only [List.foldl_cons, List.map_cons, List.sum_cons, ih]; omega

theorem status_total_deletions_eq (cps : List Checkpoint) :
    status_total_deletions cps = (cps.map (fun c => c.line_stats.deletions)).sum := by
  unfold status_total_deletions
  rw [foldl_add_eq_sum]
  simp [List.map_reverse, List.sum_reverse]

/-- C1: replaying checkpoint C1 (agent toolA/modelX adds lines 1-10 to an
empty file) then checkpoint C2 (human replaces lines 3-5) yields an
AuthorshipLog attributing lines 1-2 and 6-10 to the agent and lines 3-5 to
the human, with net agent additions 7 and net human additions 3. -/
theorem overwrite_correctness :
    toAuthorshipLog none (from_just_working_log "alice" [("f", 0)] [cpAgentTen, cpHumanReplace])
      = [("f", [⟨⟨1, 3⟩, .agent "toolA" "modelX"⟩, ⟨⟨3, 6⟩, .human "alice"⟩,
          ⟨⟨6, 11⟩, .agent "toolA" "modelX"⟩])]
    ∧ netAdditions (toAuthorshipLog none (from_just_working_log "alice" [("f", 0)]
        [cpAgentTen, cpHumanReplace])) (.agent "toolA" "modelX") = 7
    ∧ netAdditions (toAuthorshipLog none (from_just_working_log "alice" [("f", 0)]
        [cpAgentTen, cpHumanReplace])) (.human "alice") = 3 := by
  decide

/-- C2: replay is deterministic — equal WorkingLogs yield equal LineOwnership
maps and identical AuthorshipLog output; the replay functions take nothing but
the log, the base-commit state and the display name. -/
theorem replay_deterministic : ∀ (d : String) (base : List (String × Nat))
    (filt : Option (List String)) (log₁ log₂ : List Checkpoint), log₁ = log₂ →
    from_just_working_log d base log₁ = from_just_working_log d base log₂
    ∧ toAuthorshipLog filt (from_just_working_log d base log₁)
      = toAuthorshipLog filt (from_just_working_log d base log₂) := by
  intro d base filt log₁ log₂ h
  subst h
  exact ⟨rfl, rfl⟩

/-- Witness for C2: the two replays of a concrete WorkingLog coincide. -/
theorem replay_deterministic_witness :
    toAuthorshipLog none (from_just_working_log "alice" [("f", 0)] [cpAgentTen])
      = toAuthorshipLog none (from_just_working_log "alice" [("f", 0)] [cpAgentTen]) :=
  (replay_deterministic "alice" [("f", 0)] none [cpAgentTen] [cpAgentTen] rfl).2

/-- C8: the gross totals the status path hands to the Stats Aggregator are the
plain sums of every checkpoint's `line_stats.additions` and
`line_stats.deletions`, and the aggregator stores them unadjusted. -/
theorem gross_totals_raw : ∀ (cps : List Checkpoint) (al : AuthorshipLog),
    status_total_additions cps = (cps.map (fun c => c.line_stats.additions)).sum
    ∧ status_total_deletions cps = (cps.map (fun c => c.line_stats.deletions)).sum
    ∧ (stats_from_authorship_log (some al) (status_total_additions cps)
        (status_total_deletions cps)).gross_additions
      = (cps.map (fun c => c.line_stats.additions)).sum
    ∧ (stats_from_authorship_log (some al) (status_total_additions cps)
        (status_total_deletions cps)).gross_deletions
      = (cps.map (fun c => c.line_stats.deletions)).sum := by
  intro cps al
  exact ⟨rfl, status_total_deletions_eq cps, rfl, status_total_deletions_eq cps⟩

theorem noFileDiffers_refl (cur : WTState) : noFileDiffers cur cur = true := by
  simp [noFileDiffers, List.all_eq_true]

/-- C6: the Recorder appends nothing when no file differs from the last known
state; a second invocation with no intervening edits is a complete no-op, so
two successive invocations append at most one checkpoint. -/
theorem recorder_noop : ∀ (diffFn : Option (List String) → Option (List String) →
      List LineRange × List LineRange)
    (ts₁ ts₂ : Nat) (k₁ k₂ : CheckpointKind) (a₁ a₂ : Option AgentId)
    (cur : WTState) (st : RecorderState),
    recorder_run diffFn ts₂ k₂ a₂ cur (recorder_run diffFn ts₁ k₁ a₁ cur st)
      = recorder_run diffFn ts₁ k₁ a₁ cur st
    ∧ (recorder_run diffFn ts₁ k₁ a₁ cur st).store.length ≤ st.store.length + 1
    ∧ (noFileDiffers st.last_state cur = true → recorder_run diffFn ts₁ k₁ a₁ cur st = st) := by
  intro diffFn ts₁ ts₂ k₁ k₂ a₁ a₂ cur st
  by_cases h : noFileDiffers st.last_state cur = true
  · refine ⟨?_, ?_, fun _ => ?_⟩ <;> simp [recorder_run, h]
  · refine ⟨?_, ?_, fun hc => absurd hc h⟩
    · simp [recorder_run, h, noFileDiffers_refl]
    · simp [recorder_run, h]

/-- Witness for C6: on an unchanged empty working tree the Recorder is a
no-op. -/
theorem recorder_noop_witness :
    recorder_run (fun _ _ => ([], [])) 5 .Human none [] ⟨[], []⟩ = ⟨[], []⟩ :=
  (recorder_noop (fun _ _ => ([], [])) 5 6 .Human .Human none none [] ⟨[], []⟩).2.2 (by decide)

/-- C9: the status command discards the outcome of the opportunistic human
checkpoint recording — the report is the same for every recording outcome, and
a recording failure alone never makes `run_status` return an error. -/
theorem status_ignores_record_result : ∀ (env : StatusEnv) (r₁ r₂ : Except GitAiError Unit),
    run_status {env with record_result := r₁} = run_status {env with record_result := r₂}
    ∧ (∀ (e : GitAiError) (sha : String) (cps : List Checkpoint),
        env.record_result = .error e → env.repo_found = .ok () →
        env.head_sha = .ok sha → env.checkpoints = .ok cps →
        ∃ out, run_status env = .ok out) := by
  intro env r₁ r₂
  constructor
  · rfl
  · intro e sha cps _ h₂ h₃ h₄
    simp only [run_status, h₂, h₃, h₄]
    by_cases hc : cps.isEmpty <;> simp [hc]

/-- Witness for C9: a concrete environment whose recording failed still gets a
successful status report. -/
theorem status_ignores_record_result_witness : ∃ out, run_status envErr = .ok out :=
  (status_ignores_record_result envErr (.ok ()) (.ok ())).2 (.err "record failed")
    "abc1234" [cpAgentTen] rfl rfl rfl rfl

/-- C10: the checkpoint label is chosen by the presence of `agent_id` (tool
capitalized, then model) and falls back to the configured user name — which is
"unknown" when `user.name` is unset, blank, or unreadable — even when the kind
is Agent; only the grey-dimmed rendering is decided by kind = Human. -/
theorem label_by_agent_id : ∀ (now : Nat) (d : String) (cp : Checkpoint) (a : AgentId)
    (cfg : Except GitAiError (Option String)) (name : String),
    (cp.agent_id = some a →
      (mkCheckpointInfo now d cp).tool_model = capitalize a.tool ++ " " ++ a.model)
    ∧ (cp.agent_id = none → (mkCheckpointInfo now d cp).tool_model = d)
    ∧ ((mkCheckpointInfo now d cp).is_human = true ↔ cp.kind = CheckpointKind.Human)
    ∧ (renderInfo (mkCheckpointInfo now d cp)
        = if cp.kind = CheckpointKind.Human
          then "\x1b[90m" ++ infoLine (mkCheckpointInfo now d cp) ++ "\x1b[0m"
          else infoLine (mkCheckpointInfo now d cp))
    ∧ (cfg = .ok (some name) → name.trim ≠ "" → default_user_name cfg = name)
    ∧ (cfg = .ok (some name) → name.trim = "" → default_user_name cfg = "unknown")
    ∧ (cfg = .ok none → default_user_name cfg = "unknown")
    ∧ (∀ er, cfg = .error er → default_user_name cfg = "unknown") := by
  intro now d cp a cfg name
  refine ⟨?_, ?_, ?_, ?_, ?_, ?_, ?_, ?_⟩
  · intro h; simp [mkCheckpointInfo, h]
  · intro h; simp [mkCheckpointInfo, h]
  · simp [mkCheckpointInfo]
  · by_cases hk : cp.kind = CheckpointKind.Human <;> simp [renderInfo, mkCheckpointInfo, hk]
  · intro h hn; simp [default_user_name, h, hn]
  · intro h hn; simp [default_user_name, h, hn]
  · intro h; simp [default_user_name, h]
  · intro er h; simp [default_user_name, h]

/-- Witness for C10: a checkpoint of kind Agent without an agent identity is
labeled with the default user name. -/
theorem label_by_agent_id_witness :
    (mkCheckpointInfo 0 "alice" cpOddAgent).tool_model = "alice" :=
  (label_by_agent_id 0 "alice" cpOddAgent ⟨"t", "m"⟩ (.ok none) "x").2.1 rfl

theorem collectRanges_replicate_none : ∀ (n pos : Nat),
    collectRanges pos (List.replicate n none) = [] := by
  intro n
  induction n with
  | zero => intro pos; simp [collectRanges]
  | succ m ih => intro pos; simp [List.replicate_succ, collectRanges, ih]

theorem toAuthorshipLog_initVA (filt : Option (List String)) (base : List (String × Nat)) :
    toAuthorshipLog filt (initVA base) = [] := by
  unfold toAuthorshipLog
  rw [List.filter_eq_nil_iff]
  intro p hp
  rw [List.mem_map] at hp
  obtain ⟨q, hq, rfl⟩ := hp
  rw [List.mem_filter] at hq
  obtain ⟨hq1, _⟩ := hq
  unfold initVA at hq1
  rw [List.mem_map] at hq1
  obtain ⟨⟨f', n⟩, _, rfl⟩ := hq1
  simp [collectRanges_replicate_none]

/-- C5: an empty WorkingLog is not an error — status succeeds with the
no-checkpoints notice, the ownership map holds only unattributed lines, the
AuthorshipLog is empty, and every gross and net stat is zero. -/
theorem empty_log_ok : ∀ (env : StatusEnv) (sha : String) (d : String)
    (base : List (String × Nat)) (filt : Option (List String)),
    (env.repo_found = .ok () → env.head_sha = .ok sha → env.checkpoints = .ok [] →
      run_status env = .ok (.noCheckpoints sha))
    ∧ toAuthorshipLog filt (from_just_working_log d base []) = []
    ∧ (∀ f st, (f, st) ∈ from_just_working_log d base [] → ∀ l ∈ st, l = none)
    ∧ (∀ o, netAdditions (toAuthorshipLog filt (from_just_working_log d base [])) o = 0)
    ∧ status_total_additions [] = 0
    ∧ status_total_deletions [] = 0 := by
  intro env sha d base filt
  refine ⟨?_, ?_, ?_, ?_, rfl, rfl⟩
  · intro h₁ h₂ h₃
    simp only [run_status, h₁, h₂, h₃]
    simp
  · exact toAuthorshipLog_initVA filt base
  · intro f st hmem l hl
    simp only [from_just_working_log, replay, List.foldl_nil, initVA, List.mem_map] at hmem
    obtain ⟨⟨f', n⟩, _, h⟩ := hmem
    cases h
    exact List.eq_of_mem_replicate hl
  · intro o
    have h := toAuthorshipLog_initVA filt base
    show netAdditions (toAuthorshipLog filt (initVA base)) o = 0
    rw [h]
    rfl

/-- Witness for C5: the concrete empty-log environment reports the
no-checkpoints notice. -/
theorem empty_log_ok_witness : run_status envEmpty = .ok (.noCheckpoints "abc1234") :=
  (empty_log_ok envEmpty "abc1234" "alice" [] none).1 rfl rfl rfl

theorem removeLines_sublist {α : Type u} (rs : List LineRange) :
    ∀ (pos : Nat) (st : List α), List.Sublist (removeLines rs pos st) st := by
  intro pos st
  induction st generalizing pos with
  | nil => simp [removeLines]
  | cons a tl ih =>
    simp only [removeLines]
    split
    · exact List.Sublist.cons a (ih (pos + 1))
    · exact List.Sublist.cons₂ a (ih (pos + 1))

theorem mem_removeLines {α : Type u} (x : α) (rs : List LineRange) (pos : Nat) (st : List α)
    (h : x ∈ removeLines rs pos st) : x ∈ st :=
  (removeLines_sublist rs pos st).subset h

theorem get_not_mem_removeLines {α : Type u} (rs : List LineRange) :
    ∀ (st : List α) (pos i : Nat) (h : i < st.length), st.Nodup →
      inAnyRange rs (pos + i) = true → st.get ⟨i, h⟩ ∉ removeLines rs pos st := by
  intro st
  induction st with
  | nil => intro pos i h; simp at h
  | cons a tl ih =>
    intro pos i h hnd hin
    cases i with
    | zero =>
      have hpos : inAnyRange rs pos = true := by simpa using hin
      show a ∉ removeLines rs pos (a :: tl)
      simp only [removeLines, hpos, if_true]
      intro hmem
      exact (List.nodup_cons.mp hnd).1 (mem_removeLines a rs (pos + 1) tl hmem)
    | succ j =>
      have hj : j < tl.length := by simpa using h
      have hin' : inAnyRange rs (pos + 1 + j) = true := by
        rw [show pos + 1 + j = pos + (j + 1) by omega]; exact hin
      have hnd' : tl.Nodup := (List.nodup_cons.mp hnd).2
      show tl.get ⟨j, hj⟩ ∉ removeLines rs pos (a :: tl)
      simp only [removeLines]
      split
      · exact ih (pos + 1) j hj hnd' hin'
      · intro hmem
        rcases List.mem_cons.mp hmem with heq | hmem'
        · exact (List.nodup_cons.mp hnd).1 (heq ▸ tl.get_mem j hj)
        · exact ih (pos + 1) j hj hnd' hin' hmem'

theorem mem_buildPost {α : Type u} (x y : α) (rs : List LineRange) :
    ∀ (fuel : Nat) (surv : List α) (pos : Nat), y ∈ buildPost x rs fuel surv pos →
      y = x ∨ y ∈ surv := by
  intro fuel
  induction fuel with
  | zero => intro surv pos h; simp [buildPost] at h
  | succ m ih =>
    intro surv pos h
    simp only [buildPost] at h
    split at h
    · rcases List.mem_cons.mp h with h1 | h2
      · exact Or.inl h1
      · exact ih surv (pos + 1) h2
    · cases surv with
      | nil => simp at h
      | cons s rest =>
        rcases List.mem_cons.mp h with h1 | h2
        · exact Or.inr (by simp [h1])
        · rcases ih rest (pos + 1) h2 with h3 | h4
          · exact Or.inl h3
          · exact Or.inr (List.mem_cons_of_mem s h4)

/-- C4: a line whose current position a checkpoint removes is absent from the
edited file whatever its old owner was; in the concrete scenario (agent adds
lines 1-5, human deletes lines 2-4) the AuthorshipLog keeps only the two
surviving agent lines, net agent additions are 2, net human additions 0, and
the 3 gross deletions enter no net total. -/
theorem deletion_correctness :
    (∀ (st : List Nat) (x : Nat) (added removed : List LineRange) (p : Nat)
      (hp : p - 1 < st.length), st.Nodup → x ∉ st → 1 ≤ p → inAnyRange removed p = true →
      st.get ⟨p - 1, hp⟩ ∉ applyEdit x added removed st)
    ∧ toAuthorshipLog none (from_just_working_log "alice" [("f", 0)] [cpAgentFive, cpHumanDelete])
      = [("f", [⟨⟨1, 3⟩, .agent "toolA" "modelX"⟩])]
    ∧ netAdditions (toAuthorshipLog none (from_just_working_log "alice" [("f", 0)]
        [cpAgentFive, cpHumanDelete])) (.agent "toolA" "modelX") = 2
    ∧ netAdditions (toAuthorshipLog none (from_just_working_log "alice" [("f", 0)]
        [cpAgentFive, cpHumanDelete])) (.human "alice") = 0
    ∧ status_total_deletions [cpAgentFive, cpHumanDelete] = 3 := by
  refine ⟨?_, by decide, by decide, by decide, by decide⟩
  intro st x added removed p hp hnd hx h1 hin hmem
  simp only [applyEdit, applyAdditions, applyRemovals] at hmem
  rcases mem_buildPost x (st.get ⟨p - 1, hp⟩) added _ _ _ hmem with heq | hmem'
  · exact hx (heq ▸ st.get_mem (p - 1) hp)
  · have hin' : inAnyRange removed (1 + (p - 1)) = true := by
      rw [show 1 + (p - 1) = p by omega]; exact hin
    exact get_not_mem_removeLines removed st 1 (p - 1) hp hnd hin' hmem'

/-- Witness for C4: line 3 of a five-line file, lying in the removed ranges,
is absent from the edited file. -/
theorem deletion_correctness_witness :
    ([10, 20, 30, 40, 50] : List Nat).get ⟨2, by decide⟩ ∉
      applyEdit 99 [] [⟨2, 5⟩] [10, 20, 30, 40, 50] :=
  deletion_correctness.1 [10, 20, 30, 40, 50] 99 [] [⟨2, 5⟩] 3 (by decide) (by decide)
    (by decide) (by decide) (by decide)

theorem collectRanges_none_eq (pos : Nat) (tl : List (Option Owner)) :
    collectRanges pos (none :: tl) = collectRanges (pos + 1) tl := rfl

theorem collectRanges_some_eq (pos : Nat) (o : Owner) (tl : List (Option Owner)) :
    collectRanges pos (some o :: tl) =
      match collectRanges (pos + 1) tl with
      | [] => [⟨⟨pos, pos + 1⟩, o⟩]
      | ro :: tail =>
        if ro.owner = o ∧ ro.range.start = pos + 1 then ⟨⟨pos, ro.range.stop⟩, o⟩ :: tail
        else ⟨⟨pos, pos + 1⟩, o⟩ :: ro :: tail := rfl

theorem collectRanges_bounds : ∀ (st : List (Option Owner)) (pos : Nat) (ro : RangeOwner),
    ro ∈ collectRanges pos st → pos ≤ ro.range.start ∧ ro.range.start < ro.range.stop := by
  intro st
  induction st with
  | nil => intro pos ro h; simp [collectRanges] at h
  | cons a tl ih =>
    intro pos ro h
    cases a with
    | none =>
      rw [collectRanges_none_eq] at h
      have := ih (pos + 1) ro h
      omega
    | some o =>
      obtain hL | ⟨r0, tail, hL⟩ :
          collectRanges (pos + 1) tl = [] ∨
            ∃ r0 tail, collectRanges (pos + 1) tl = r0 :: tail := by
        cases collectRanges (pos + 1) tl with
        | nil => exact Or.inl rfl
        | cons u v => exact Or.inr ⟨u, v, rfl⟩
      · simp only [collectRanges_some_eq, hL, List.mem_singleton] at h
        subst h
        show pos ≤ pos ∧ pos < pos + 1
        omega
      · have hr0 := ih (pos + 1) r0 (hL ▸ List.mem_cons_self r0 tail)
        simp only [collectRanges_some_eq, hL] at h
        by_cases hm : r0.owner = o ∧ r0.range.start = pos + 1
        · rw [if_pos hm] at h
          rcases List.mem_cons.mp h with h1 | h2
          · subst h1
            have hm2 := hm.2
            show pos ≤ pos ∧ pos < r0.range.stop
            omega
          · have := ih (pos + 1) ro (hL ▸ List.mem_cons_of_mem r0 h2)
            omega
        · rw [if_neg hm] at h
          rcases List.mem_cons.mp h with h1 | h2
          · subst h1
            show pos ≤ pos ∧ pos < pos + 1
            omega
          · have := ih (pos + 1) ro (hL ▸ h2)
            omega

theorem collectRanges_chain : ∀ (st : List (Option Owner)) (pos : Nat),
    rangesSortedMerged (collectRanges pos st) := by
  intro st
  induction st with
  | nil => intro pos; simp [collectRanges, rangesSortedMerged]
  | cons a tl ih =>
    intro pos
    cases a with
    | none => rw [collectRanges_none_eq]; exact ih (pos + 1)
    | some o =>
      obtain hL | ⟨r0, tail, hL⟩ :
          collectRanges (pos + 1) tl = [] ∨
            ∃ r0 tail, collectRanges (pos + 1) tl = r0 :: tail := by
        cases collectRanges (pos + 1) tl with
        | nil => exact Or.inl rfl
        | cons u v => exact Or.inr ⟨u, v, rfl⟩
      · simp only [collectRanges_some_eq, hL]
        exact List.chain'_singleton _
      · have hchain := ih (pos + 1)
        rw [hL] at hchain
        have hr0 := collectRanges_bounds tl (pos + 1) r0 (hL ▸ List.mem_cons_self r0 tail)
        simp only [collectRanges_some_eq, hL]
        by_cases hm : r0.owner = o ∧ r0.range.start = pos + 1
        · rw [if_pos hm]
          unfold rangesSortedMerged at hchain ⊢
          rw [List.chain'_cons'] at hchain ⊢
          obtain ⟨hrel, htail⟩ := hchain
          refine ⟨?_, htail⟩
          intro y hy
          obtain ⟨h1, h2, h3⟩ := hrel y hy
          have hm2 := hm.2
          refine ⟨by show pos < y.range.start; omega, h2, ?_⟩
          intro hc
          exact h3 ⟨hc.1, by rw [hm.1]; exact hc.2⟩
        · rw [if_neg hm]
          unfold rangesSortedMerged at hchain ⊢
          rw [List.chain'_cons]
          refine ⟨⟨?_, ?_, ?_⟩, hchain⟩
          · show pos < r0.range.start; omega
          · show pos + 1 ≤ r0.range.start; omega
          · intro hc
            exact hm ⟨hc.2.symm, hc.1.symm⟩

/-- C7: the AuthorshipLog built under a path filter mentions only files of the
filter set (only files of the ownership map when no filter is given), and
within every file the ranges are sorted by starting line, non-overlapping, and
merged (adjacent ranges never touch with the same owner). -/
theorem path_filtering : ∀ (va : LineOwnership) (fs : List String) (f : String)
    (rs : List RangeOwner),
    ((f, rs) ∈ toAuthorshipLog (some fs) va → f ∈ fs)
    ∧ (∀ filt, (f, rs) ∈ toAuthorshipLog filt va → rangesSortedMerged rs)
    ∧ ((f, rs) ∈ toAuthorshipLog none va → ∃ st, (f, st) ∈ va) := by
  intro va fs f rs
  have hmem : ∀ (filt : Option (List String)), (f, rs) ∈ toAuthorshipLog filt va →
      fileMatches filt f = true ∧ ∃ st, (f, st) ∈ va ∧ rs = collectRanges 1 st := by
    intro filt h
    unfold toAuthorshipLog at h
    rw [List.mem_filter] at h
    obtain ⟨h1, _⟩ := h
    rw [List.mem_map] at h1
    obtain ⟨⟨f', st⟩, hq, heq⟩ := h1
    rw [List.mem_filter] at hq
    obtain ⟨hva, hmatch⟩ := hq
    injection heq with he1 he2
    subst he1
    subst he2
    exact ⟨hmatch, st, hva, rfl⟩
  refine ⟨?_, ?_, ?_⟩
  · intro h
    have hh := (hmem (some fs) h).1
    exact List.mem_of_elem_eq_true hh
  · intro filt h
    obtain ⟨_, st, _, hrs⟩ := hmem filt h
    rw [hrs]
    exact collectRanges_chain st 1
  · intro h
    obtain ⟨_, st, hst, _⟩ := hmem none h
    exact ⟨st, hst⟩

/-- Witness for C7: a concrete filtered AuthorshipLog entry lies in the filter
set and its ranges are sorted and merged. -/
theorem path_filtering_witness :
    "a" ∈ ["a"] ∧ rangesSortedMerged [⟨⟨1, 2⟩, Owner.human "h"⟩] :=
  ⟨(path_filtering [("a", [some (Owner.human "h")]), ("b", [some (Owner.human "h")])]
      ["a"] "a" [⟨⟨1, 2⟩, Owner.human "h"⟩]).1 (by decide),
    (path_filtering [("a", [some (Owner.human "h")]), ("b", [some (Owner.human "h")])]
      ["a"] "a" [⟨⟨1, 2⟩, Owner.human "h"⟩]).2.1 (some ["a"]) (by decide)⟩

theorem sublist_sum_le : ∀ {l₁ l₂ : List Nat}, List.Sublist l₁ l₂ → l₁.sum ≤ l₂.sum := by
  intro l₁ l₂ h
  induction h with
  | slnil => exact Nat.le_refl 0
  | cons a h ih => simp only [List.sum_cons]; omega
  | cons₂ a h ih => simp only [List.sum_cons]; omega

theorem netInRanges_cons (o : Owner) (ro : RangeOwner) (l : List RangeOwner) :
    netInRanges o (ro :: l) =
      (if ro.owner = o then rangeLen ro.range else 0) + netInRanges o l := by
  by_cases h : ro.owner = o <;> simp [netInRanges, List.filter_cons, h]

theorem netInRanges_collectRanges (o : Owner) : ∀ (st : List (Option Owner)) (pos : Nat),
    netInRanges o (collectRanges pos st) = countOwner o st := by
  intro st
  induction st with
  | nil => intro pos; rfl
  | cons a tl ih =>
    intro pos
    cases a with
    | none =>
      rw [collectRanges_none_eq, ih (pos + 1)]
      simp [countOwner, List.countP_cons]
    | some w =>
      have hco : countOwner o (some w :: tl) = countOwner o tl + (if w = o then 1 else 0) := by
        by_cases h : w = o <;> simp [countOwner, List.countP_cons, h]
      obtain hL | ⟨r0, tail, hL⟩ :
          collectRanges (pos + 1) tl = [] ∨
            ∃ r0 tail, collectRanges (pos + 1) tl = r0 :: tail := by
        cases collectRanges (pos + 1) tl with
        | nil => exact Or.inl rfl
        | cons u v => exact Or.inr ⟨u, v, rfl⟩
      · have h0 : countOwner o tl = 0 := by rw [← ih (pos + 1), hL]; rfl
        simp only [collectRanges_some_eq, hL, hco, h0]
        by_cases h : w = o <;> simp [netInRanges, rangeLen, h]
      · have hr0 := collectRanges_bounds tl (pos + 1) r0 (hL ▸ List.mem_cons_self r0 tail)
        have hIH := ih (pos + 1)
        rw [hL, netInRanges_cons] at hIH
        simp only [collectRanges_some_eq, hL, hco]
        by_cases hm : r0.owner = w ∧ r0.range.start = pos + 1
        · rw [if_pos hm, netInRanges_cons, ← hIH]
          obtain ⟨hm1, hm2⟩ := hm
          subst hm1
          have hb1 := hr0.1
          have hb2 := hr0.2
          by_cases h : r0.owner = o <;> simp [h, rangeLen] <;> omega
        · rw [if_neg hm, netInRanges_cons, netInRanges_cons, ← hIH]
          by_cases h : w = o <;> by_cases h2 : r0.owner = o <;>
            simp [h, h2, rangeLen] <;> omega

theorem netAdditions_le_countOwnerVA (o : Owner) (filt : Option (List String))
    (va : LineOwnership) :
    netAdditions (toAuthorshipLog filt va) o ≤ countOwnerVA o va := by
  unfold netAdditions toAuthorshipLog countOwnerVA
  have h₁ := List.filter_sublist (p := fun p : String × List RangeOwner => !p.2.isEmpty)
    ((va.filter (fun p => fileMatches filt p.1)).map (fun p => (p.1, collectRanges 1 p.2)))
  have h₂ := h₁.map (fun p : String × List RangeOwner => netInRanges o p.2)
  refine Nat.le_trans (sublist_sum_le h₂) ?_
  rw [List.map_map]
  have h₄ : ((va.filter (fun p => fileMatches filt p.1)).map
      ((fun p : String × List RangeOwner => netInRanges o p.2) ∘
        (fun p : String × FileState => (p.1, collectRanges 1 p.2)))) =
      (va.filter (fun p => fileMatches filt p.1)).map
        (fun p : String × FileState => countOwner o p.2) := by
    apply List.map_congr_left
    intro p _
    exact netInRanges_collectRanges o p.2 1
  rw [h₄]
  exact sublist_sum_le ((List.filter_sublist va).map
    (fun p : String × FileState => countOwner o p.2))

theorem countInRange_le (r : LineRange) : ∀ (fuel pos : Nat),
    countInRange r pos fuel ≤ r.stop - max r.start pos := by
  intro fuel
  induction fuel with
  | zero => intro pos; simp [countInRange]
  | succ m ih =>
    intro pos
    simp only [countInRange]
    have hnext := ih (pos + 1)
    by_cases h : inRange r pos = true
    · have hr : r.start ≤ pos ∧ pos < r.stop := by simpa [inRange] using h
      rw [if_pos h]
      omega
    · rw [if_neg h]
      omega

theorem coveredCount_nil : ∀ (pos fuel : Nat), coveredCount [] pos fuel = 0 := by
  intro pos fuel
  induction fuel generalizing pos with
  | zero => rfl
  | succ m ih => simp [coveredCount, inAnyRange, ih]

theorem coveredCount_cons (r : LineRange) (rs : List LineRange) : ∀ (fuel pos : Nat),
    coveredCount (r :: rs) pos fuel ≤ countInRange r pos fuel + coveredCount rs pos fuel := by
  intro fuel
  induction fuel with
  | zero => intro pos; simp [coveredCount]
  | succ m ih =>
    intro pos
    simp only [coveredCount, countInRange]
    have hnext := ih (pos + 1)
    have hsplit : inAnyRange (r :: rs) pos = (inRange r pos || inAnyRange rs pos) := by
      simp [inAnyRange]
    rw [hsplit]
    by_cases h1 : inRange r pos = true <;> by_cases h2 : inAnyRange rs pos = true <;>
      simp [h1, h2] <;> omega

theorem coveredCount_le_totalLen : ∀ (rs : List LineRange) (pos fuel : Nat),
    coveredCount rs pos fuel ≤ totalLen rs := by
  intro rs
  induction rs with
  | nil => intro pos fuel; rw [coveredCount_nil]; exact Nat.zero_le _
  | cons r rest ih =>
    intro pos fuel
    have h1 := coveredCount_cons r rest fuel pos
    have h2 := countInRange_le r fuel pos
    have h3 := ih pos fuel
    have h4 : totalLen (r :: rest) = rangeLen r + totalLen rest := by simp [totalLen]
    rw [h4]
    unfold rangeLen at h2 ⊢
    omega

theorem countP_buildPost {α : Type u} (p : α → Bool) (x : α) (rs : List LineRange) :
    ∀ (fuel : Nat) (surv : List α) (pos : Nat),
      (buildPost x rs fuel surv pos).countP p ≤
        (if p x then coveredCount rs pos fuel else 0) + surv.countP p := by
  intro fuel
  induction fuel with
  | zero => intro surv pos; simp [buildPost]
  | succ m ih =>
    intro surv pos
    simp only [buildPost, coveredCount]
    by_cases h : inAnyRange rs pos = true
    · rw [if_pos h]
      rw [List.countP_cons]
      have hnext := ih surv (pos + 1)
      by_cases hp : p x = true <;> simp [hp, h] at hnext ⊢ <;> omega
    · rw [if_neg h]
      cases surv with
      | nil => simp
      | cons s rest =>
        rw [List.countP_cons]
        have hnext := ih rest (pos + 1)
        rw [List.countP_cons]
        by_cases hp : p x = true <;> by_cases hps : p s = true <;>
          simp [hp, hps, h] at hnext ⊢ <;> omega

theorem countOwner_applyEdit (o w : Owner) (added removed : List LineRange) (st : FileState) :
    countOwner o (applyEdit (some w) added removed st) ≤
      countOwner o st + (if w = o then totalLen added else 0) := by
  unfold countOwner applyEdit applyAdditions applyRemovals
  have h1 := countP_buildPost (fun l : Option Owner => l = some o) (some w) added
    ((removeLines removed 1 st).length + totalLen added) (removeLines removed 1 st) 1
  have h2 := coveredCount_le_totalLen added 1
    ((removeLines removed 1 st).length + totalLen added)
  have h3 := List.Sublist.countP_le (fun l : Option Owner => decide (l = some o))
    (removeLines_sublist removed 1 st)
  by_cases hw : w = o
  · subst hw
    simp only [decide_eq_true_eq, Option.some.injEq] at h1
    simp only [if_pos rfl, ite_true] at h1 ⊢
    omega
  · have : (decide (some w = some o)) = false := by
      simp [hw]
    rw [this] at h1
    simp only [Bool.false_eq_true, if_false, ite_false] at h1
    rw [if_neg hw]
    omega

theorem countOwnerVA_updateFile (o : Owner) (k : Nat) (g : FileState → FileState)
    (hg : ∀ st, countOwner o (g st) ≤ countOwner o st + k) :
    ∀ (va : LineOwnership) (f : String),
      countOwnerVA o (updateFile va f g) ≤ countOwnerVA o va + k := by
  intro va
  induction va with
  | nil =>
    intro f
    simp only [updateFile, countOwnerVA, List.map_cons, List.map_nil, List.sum_cons,
      List.sum_nil]
    have h1 := hg []
    have h0 : countOwner o [] = 0 := rfl
    omega
  | cons q rest ih =>
    intro f
    obtain ⟨f', st⟩ := q
    simp only [updateFile]
    by_cases h : f' = f
    · rw [if_pos h]
      simp only [countOwnerVA, List.map_cons, List.sum_cons]
      have h1 := hg st
      omega
    · rw [if_neg h]
      simp only [countOwnerVA, List.map_cons, List.sum_cons]
      have h1 := ih f
      simp only [countOwnerVA] at h1
      omega

theorem countOwnerVA_applyEntry (o w : Owner) (e : FileEntry) (va : LineOwnership) :
    countOwnerVA o (applyEntry w e va) ≤
      countOwnerVA o va + (if w = o then totalLen e.added else 0) :=
  countOwnerVA_updateFile o _ _ (fun st => countOwner_applyEdit o w e.added e.removed st)
    va e.file

theorem countOwnerVA_foldl_entries (o w : Owner) :
    ∀ (entries : List FileEntry) (va : LineOwnership),
      countOwnerVA o (entries.foldl (fun va e => applyEntry w e va) va) ≤
        countOwnerVA o va + (if w = o then sumAddedLines entries else 0) := by
  intro entries
  induction entries with
  | nil => intro va; by_cases h : w = o <;> simp [sumAddedLines, h]
  | cons e es ih =>
    intro va
    simp only [List.foldl_cons]
    have h1 := ih (applyEntry w e va)
    have h2 := countOwnerVA_applyEntry o w e va
    have h3 : sumAddedLines (e :: es) = totalLen e.added + sumAddedLines es := by
      simp [sumAddedLines]
    by_cases h : w = o <;> simp only [h, if_true, if_false, ite_true, ite_false] at h1 h2 ⊢ <;>
      omega

theorem countOwnerVA_replay (o : Owner) (d : String) :
    ∀ (log : List Checkpoint) (va : LineOwnership),
      countOwnerVA o (replay d va log) ≤ countOwnerVA o va +
        (log.map (fun c => if checkpointOwner d c = o then sumAddedLines c.entries else 0)).sum := by
  intro log
  induction log with
  | nil => intro va; simp [replay]
  | cons c cs ih =>
    intro va
    simp only [replay, List.foldl_cons, List.map_cons, List.sum_cons]
    have h1 := ih (applyCheckpoint d va c)
    have h2 := countOwnerVA_foldl_entries o (checkpointOwner d c) c.entries va
    simp only [replay] at h1
    simp only [applyCheckpoint] at h1 h2 ⊢
    omega

theorem countOwner_replicate_none (o : Owner) : ∀ (n : Nat),
    countOwner o (List.replicate n none) = 0 := by
  intro n
  induction n with
  | zero => rfl
  | succ m ih => simpa [List.replicate_succ, countOwner, List.countP_cons] using ih

theorem countOwnerVA_initVA (o : Owner) (base : List (String × Nat)) :
    countOwnerVA o (initVA base) = 0 := by
  induction base with
  | nil => rfl
  | cons p rest ih =>
    simp only [initVA, countOwnerVA, List.map_cons, List.sum_cons] at ih ⊢
    rw [countOwner_replicate_none]
    omega

theorem gross_filter_eq (d : String) (o : Owner) :
    ∀ (log : List Checkpoint), (∀ c ∈ log, c.line_stats.additions = sumAddedLines c.entries) →
      (log.map (fun c => if checkpointOwner d c = o then sumAddedLines c.entries else 0)).sum =
        grossAdditionsOf d o log := by
  intro log
  induction log with
  | nil => intro _; rfl
  | cons c cs ih =>
    intro h
    have hc := h c (List.mem_cons_self c cs)
    have hcs := ih (fun c' hc' => h c' (List.mem_cons_of_mem c hc'))
    simp only [List.map_cons, List.sum_cons, grossAdditionsOf] at hcs ⊢
    rw [hcs, hc]

/-- C3: conservation — for every WorkingLog whose checkpoints report
`line_stats.additions` as the Recorder computes them (the sum of added lines
over the checkpoint's entries), the net surviving additions credited to any
author in the AuthorshipLog never exceed the sum of the gross additions
reported by that author's checkpoints. -/
theorem net_le_gross : ∀ (d : String) (base : List (String × Nat))
    (filt : Option (List String)) (log : List Checkpoint) (o : Owner),
    (∀ c ∈ log, c.line_stats.additions = sumAddedLines c.entries) →
    netAdditions (toAuthorshipLog filt (from_just_working_log d base log)) o ≤
      grossAdditionsOf d o log := by
  intro d base filt log o h
  have h1 := netAdditions_le_countOwnerVA o filt (from_just_working_log d base log)
  have h2 := countOwnerVA_replay o d log (initVA base)
  have h3 := countOwnerVA_initVA o base
  have h4 := gross_filter_eq d o log h
  simp only [from_just_working_log] at h1 ⊢
  omega

/-- Witness for C3 on the overwrite scenario: the agent's net surviving
additions (7) are bounded by its reported gross additions (10). -/
theorem net_le_gross_witness :
    netAdditions (toAuthorshipLog none (from_just_working_log "alice" [("f", 0)]
      [cpAgentTen, cpHumanReplace])) (.agent "toolA" "modelX") ≤
      grossAdditionsOf "alice" (.agent "toolA" "modelX") [cpAgentTen, cpHumanReplace] :=
  net_le_gross "alice" [("f", 0)] none [cpAgentTen, cpHumanReplace]
    (.agent "toolA" "modelX") (by decide)
